import Mathlib

/-!
Verification development for the build-document resolution engine of the
repository (src/prepare.ts).  The TypeScript source is shallowly embedded:
each mutating function becomes a pure function from its inputs to the new
value of the data it mutates, and the registry of pre-parsed builds becomes
an association list threaded through the pipeline explicitly.

JavaScript-level behaviour is modelled faithfully:
  * `Array.prototype.includes` uses strict equality, so a bare enable
    (a string) is never `includes`-equal to a tuple enable (an array);
  * `Array.prototype.splice` removal by previously collected indices is
    performed sequentially, so later indices refer to the already shortened
    array (the index-shift behaviour of `fixConfigurationConflicts`);
  * `e[0]` on a string denotes its first character (as a 1-character
    string), which matters in the `find` callback of
    `mergeExtensionConfiguration`;
  * `"partial" in build` tests key presence, not the value of the key.
Tuple enables carry a `z.unknown()` parameter value in the source; the merge
logic never inspects these values, so they are modelled by `Nat`.
-/

/-- An entry of a configuration `enable` list: either a bare option name or
a `[name, value]` tuple (source: `z.string().min(1).or(z.tuple([...]))`). -/
inductive Enable where
  | bare (name : String)
  | tup (name : String) (val : Nat)
deriving DecidableEq

/-- The option name of an enable entry (`typeof e === "string" ? e : e[0]`). -/
def enableName : Enable → String
  | .bare n => n
  | .tup n _ => n

/-- A `configuration` / `configuration_adv` object: ordered `enable` and
`disable` sequences. -/
structure ConfigSet where
  enable : List Enable
  disable : List String
deriving DecidableEq

/-- The `meta` object of a build (`stable_name`, `nightly_name`). -/
structure MetaNames where
  stable_name : String
  nightly_name : String
deriving DecidableEq

/-- The `based_on` object.  In extended builds `deepPartial` makes every
field optional, so all fields are `Option`. -/
structure BasedOn where
  repo : Option String
  path : Option String
  stable_branch : Option String
  nightly_branch : Option String
deriving DecidableEq

/-- A value that is either a single string or an array of strings
(the `z.string().or(z.array(z.string()))` unions used by `include` and by
`extends`). -/
inductive StrOrList where
  | one (s : String)
  | many (l : List String)
deriving DecidableEq

/-- The runtime shape shared by full, extended and partial build documents
after zod parsing.  Fields that a given kind lacks (or that `deepPartial`
makes optional) are `none`.  `extendsField` models the `extends` key and
`includeField` the `include` key. -/
structure Build where
  board_env : Option String
  includeField : Option StrOrList
  extendsField : Option StrOrList
  active : Option Bool
  only : Option String
  min_version : Option String
  meta : Option MetaNames
  based_on : Option BasedOn
  configuration : ConfigSet
  configuration_adv : ConfigSet
deriving DecidableEq

/-- A build with no fields set and empty configurations. -/
def emptyBuild : Build :=
  ⟨none, none, none, none, none, none, none, none, ⟨[], []⟩, ⟨[], []⟩⟩

/-- The classification of a pre-parsed document (`kind` tag of `PreParsed`). -/
inductive DocKind where
  | full
  | ext
  | part
deriving DecidableEq

/-- One entry of the pre-parsed registry: `{kind, build, name}`. -/
structure Entry where
  kind : DocKind
  name : String
  build : Build
deriving DecidableEq

/-- The pre-parsed registry `preParsed`, an object keyed by build path.  Key
insertion order is significant (`Object.entries` iteration), so it is an
association list. -/
abbrev Registry := List (String × Entry)

/-- `preParsed[n]`: first entry with key `n`. -/
def getReg : Registry → String → Option Entry
  | [], _ => none
  | (k, e) :: rest, n => if k == n then some e else getReg rest n

/-- Whether key `n` is present. -/
def hasKey : Registry → String → Bool
  | [], _ => false
  | (k, _) :: rest, n => k == n || hasKey rest n

/-- Replace the value at an existing key, keeping its position. -/
def replaceKey : Registry → String → Entry → Registry
  | [], _, _ => []
  | (k, e0) :: rest, n, e =>
      if k == n then (k, e) :: replaceKey rest n e else (k, e0) :: replaceKey rest n e

/-- `preParsed[n] = e`: JavaScript object assignment updates an existing key
in place and otherwise appends the key at the end. -/
def setReg (reg : Registry) (n : String) (e : Entry) : Registry :=
  if hasKey reg n then replaceKey reg n e else reg ++ [(n, e)]

/-!
## Conflict Reconciler (`fixConfigurationConflicts`)

The source collects the indices of conflicting entries first and then
removes them one by one with `splice(toRemove, 1)`; each removal shifts the
remaining elements, so the collected indices address the already shortened
list.  `List.eraseIdx` is a no-op out of range, exactly like `splice`.
-/

/-- `fixConfigurationConflicts(build1, build2, ..., configType)` restricted
to one configuration pair: returns the new value of `build1[configType]`
(`build2[configType]` is never mutated).  `selfCheck` is
`build1 === build2`. -/
def fixConfigurationConflicts (b1 b2 : ConfigSet) (selfCheck : Bool) : ConfigSet :=
  let b2DisableNames := b2.disable
  let b2EnableNames := b2.enable.map enableName
  let removeEnables :=
    (b1.enable.enum.filter (fun p => b2DisableNames.contains (enableName p.2))).map (·.1)
  let newEnable := removeEnables.foldl (fun l i => l.eraseIdx i) b1.enable
  let removeDisables :=
    if selfCheck then []
    else (b1.disable.enum.filter (fun p => b2EnableNames.contains p.2)).map (·.1)
  let newDisable := removeDisables.foldl (fun l i => l.eraseIdx i) b1.disable
  ⟨newEnable, newDisable⟩

/-!
## Extension and partial configuration merging
-/

/-- The callback `e => e[0] === enable[0]` of the `find` in
`mergeExtensionConfiguration`: for a string `e`, `e[0]` is its first
character as a 1-character string (`undefined` for the empty string). -/
def findIdx0Pred (n : String) : Enable → Bool
  | .bare s =>
      match s.data with
      | [] => false
      | c :: _ => String.singleton c == n
  | .tup m _ => m == n

/-- `const enableToupdate = base.enable.find(e => e[0] === enable[0]);
if (enableToupdate && Array.isArray(enableToupdate)) enableToupdate[1] = enable[1]`:
update the first match in place when it is a tuple; when the first match is
a bare string nothing happens. -/
def updateFound (n : String) (v : Nat) : List Enable → List Enable
  | [] => []
  | .bare s :: rest =>
      if findIdx0Pred n (.bare s) then .bare s :: rest
      else .bare s :: updateFound n v rest
  | .tup m w :: rest =>
      if findIdx0Pred n (.tup m w) then .tup m v :: rest
      else .tup m w :: updateFound n v rest

/-- The body of the `enable` loop of `mergeExtensionConfiguration` for one
extension entry. -/
def mergeEnableStep (baseEn : List Enable) : Enable → List Enable
  | .bare s =>
      if baseEn.contains (.bare s) then baseEn else baseEn ++ [.bare s]
  | .tup n v =>
      if (baseEn.map enableName).contains n then updateFound n v baseEn
      else baseEn ++ [.tup n v]

/-- The body of the `disable` loop shared by both merge functions. -/
def mergeDisableStep (baseDis : List String) (d : String) : List String :=
  if baseDis.contains d then baseDis else baseDis ++ [d]

/-- `mergeExtensionConfiguration(base, extension, configType)` restricted to
one configuration pair: returns the new `base[configType]`. -/
def mergeExtensionConfiguration (base ext : ConfigSet) : ConfigSet :=
  ⟨ext.enable.foldl mergeEnableStep base.enable,
   ext.disable.foldl mergeDisableStep base.disable⟩

/-- The body of the `enable` loop of `mergePartialConfiguration`: same as
the extension step except that an already-present tuple name is left alone
(no value update). -/
def mergePartialEnableStep (baseEn : List Enable) : Enable → List Enable
  | .bare s =>
      if baseEn.contains (.bare s) then baseEn else baseEn ++ [.bare s]
  | .tup n v =>
      if (baseEn.map enableName).contains n then baseEn
      else baseEn ++ [.tup n v]

/-- `mergePartialConfiguration(base, extension, configType)` restricted to
one configuration pair: returns the new `base[configType]`. -/
def mergePartialConfiguration (base ext : ConfigSet) : ConfigSet :=
  ⟨ext.enable.foldl mergePartialEnableStep base.enable,
   ext.disable.foldl mergeDisableStep base.disable⟩

/-!
## Core scalar merge (`mergeCoreProperties`)
-/

/-- JavaScript `a || b` on optional strings (the empty string is falsy). -/
def jsOr (a b : Option String) : Option String :=
  match a with
  | some s => if s = "" then b else some s
  | none => b

/-- `mergeCoreProperties(base, extension)`: returns the new `base`.  `meta`,
`active` and `only` are overwritten unconditionally; `board_env` and each
`based_on` field fall back to the base only when the extension leaves them
unset.  `min_version`, `include`, `extends` and the configurations are not
touched by this function. -/
def mergeCoreProperties (base extension : Build) : Build :=
  { base with
    meta := extension.meta
    active := extension.active
    only := extension.only
    board_env := jsOr extension.board_env base.board_env
    based_on := some
      ⟨jsOr (extension.based_on.bind (·.repo)) (base.based_on.bind (·.repo)),
       jsOr (extension.based_on.bind (·.path)) (base.based_on.bind (·.path)),
       jsOr (extension.based_on.bind (·.stable_branch)) (base.based_on.bind (·.stable_branch)),
       jsOr (extension.based_on.bind (·.nightly_branch)) (base.based_on.bind (·.nightly_branch))⟩ }

/-!
## Extension Resolver (`mergeExtension`)

`mergeExtension` recurses through `extends` chains while mutating the
registry (memoization).  The recursion is not structurally decreasing in the
source (and has no cycle guard), so the embedding takes an explicit fuel
parameter; running out of fuel is the `MergeErr.outOfFuel` result, which
models non-termination of the source's recursion.
-/

/-- Failure modes of the resolution passes.  `missingRef` models the thrown
reference errors (and the `JSON.parse(JSON.stringify(undefined))` crash on a
dangling nested parent); `notPartialDoc` models the "included X is not a
partial" error; `outOfFuel` marks exhausted recursion fuel. -/
inductive MergeErr where
  | outOfFuel
  | missingRef (n : String)
  | notPartialDoc (n : String)
deriving DecidableEq

/-- The `extends` references of a build, in order (empty when the build has
no `extends` key). -/
def parentsOf (b : Build) : List String :=
  match b.extendsField with
  | none => []
  | some (.one s) => [s]
  | some (.many l) => l

/-- Merging one resolved parent (or, at the end, the extending build itself)
into the accumulator entry: `mergeCoreProperties` followed by conflict
reconciliation and extension merging of both configuration pairs
(lines 251-255 / 259-263 / 275-279 of prepare.ts).  Only `current.build` is
read; only the accumulator entry changes. -/
def mergeEntryInto (ini current : Entry) : Entry :=
  let b1 := mergeCoreProperties ini.build current.build
  let c1 := fixConfigurationConflicts b1.configuration current.build.configuration false
  let c2 := mergeExtensionConfiguration c1 current.build.configuration
  let a1 := fixConfigurationConflicts b1.configuration_adv current.build.configuration_adv false
  let a2 := mergeExtensionConfiguration a1 current.build.configuration_adv
  { ini with build := { b1 with configuration := c2, configuration_adv := a2 } }

/-- Fetch a parent entry: copy `preParsed[ex]`; if it is still extended,
resolve it recursively (memoizing into the registry) and copy the memoized
result (lines 240-246 and 268-274).  `recur` is the resolver at the next
smaller fuel. -/
def resolveParentEntry
    (recur : Registry → String → Build → Except MergeErr Registry)
    (reg : Registry) (ex : String) : Except MergeErr (Registry × Entry) :=
  match getReg reg ex with
  | none => .error (.missingRef ex)
  | some cur =>
    match cur.kind with
    | DocKind.ext =>
      match recur reg ex cur.build with
      | .error err => .error err
      | .ok reg' =>
        match getReg reg' ex with
        | none => .error (.missingRef ex)
        | some cur' => .ok (reg', cur')
    | _ => .ok (reg, cur)

/-- The left fold over an ordered parent list (lines 238-256): resolve each
parent in turn and merge it into the accumulator; the first parent becomes
the initial accumulator. -/
def extFoldParents
    (recur : Registry → String → Build → Except MergeErr Registry) :
    Registry → List String → Option Entry → Except MergeErr (Registry × Option Entry)
  | reg, [], ini => .ok (reg, ini)
  | reg, ex :: rest, ini =>
    match resolveParentEntry recur reg ex with
    | .error err => .error err
    | .ok (reg', cur) =>
      match ini with
      | none => extFoldParents recur reg' rest (some cur)
      | some i => extFoldParents recur reg' rest (some (mergeEntryInto i cur))

/-- `mergeExtension(preParsed, buildName, build)`: returns the new registry.
The single-parent and parent-list branches are both modelled; the final
merged entry is stored under the extending build's own name. -/
def mergeExtension : Nat → Registry → String → Build → Except MergeErr Registry
  | 0, _, _, _ => .error .outOfFuel
  | fuel + 1, reg, buildName, build =>
    match build.extendsField with
    | none => .error (.missingRef buildName)
    | some (.one ex) =>
      match resolveParentEntry (mergeExtension fuel) reg ex with
      | .error err => .error err
      | .ok (reg', base) =>
        let fin := mergeEntryInto base ⟨DocKind.ext, buildName, build⟩
        .ok (setReg reg' buildName { fin with name := buildName })
    | some (.many exts) =>
      match extFoldParents (mergeExtension fuel) reg exts none with
      | .error err => .error err
      | .ok (reg', none) => .ok reg'
      | .ok (reg', some ini) =>
        let fin := mergeEntryInto ini ⟨DocKind.ext, buildName, build⟩
        .ok (setReg reg' buildName { fin with name := buildName })

/-!
## Partial Resolver (the include loop of `loadBuilds`, lines 82-114)
-/

/-- Process one `include` reference of `buildName`: check the partial
exists and is a partial, reconcile the partial's configurations against the
including build's (mutating the partial's registry entry in place), then
merge the partial's configurations into the including build.  When a
partial includes itself the two builds are the same object, so `selfCheck`
is true and the merge reads the already-fixed sets. -/
def processOneInclude (reg : Registry) (buildName pName : String) :
    Except MergeErr Registry :=
  match getReg reg pName with
  | none => .error (.missingRef pName)
  | some pe =>
    if pe.kind = DocKind.part then
      match getReg reg buildName with
      | none => .error (.missingRef buildName)
      | some de =>
        if pName == buildName then
          let b := pe.build
          let c1 := fixConfigurationConflicts b.configuration b.configuration true
          let c2 := mergePartialConfiguration c1 c1
          let a1 := fixConfigurationConflicts b.configuration_adv b.configuration_adv true
          let a2 := mergePartialConfiguration a1 a1
          .ok (setReg reg pName
            { pe with build := { b with configuration := c2, configuration_adv := a2 } })
        else
          let pc := fixConfigurationConflicts pe.build.configuration de.build.configuration false
          let dc := mergePartialConfiguration de.build.configuration pc
          let pa := fixConfigurationConflicts pe.build.configuration_adv de.build.configuration_adv false
          let da := mergePartialConfiguration de.build.configuration_adv pa
          let reg1 := setReg reg pName
            { pe with build := { pe.build with configuration := pc, configuration_adv := pa } }
          .ok (setReg reg1 buildName
            { de with build := { de.build with configuration := dc, configuration_adv := da } })
    else .error (.notPartialDoc pName)

/-- Process every `include` reference of one document, in declared order. -/
def processIncludes (reg : Registry) (buildName : String) : Except MergeErr Registry :=
  match getReg reg buildName with
  | none => .ok reg
  | some de =>
    match de.build.includeField with
    | none => .ok reg
    | some (.one s) => processOneInclude reg buildName s
    | some (.many l) => l.foldlM (fun r p => processOneInclude r buildName p) reg

/-- The whole partial-inclusion pass: iterate the registry's documents in
key order (an `Object.entries` snapshot of the keys) and process each
document's includes against the current, in-place-mutated registry. -/
def inclusionPass (reg : Registry) : Except MergeErr Registry :=
  (reg.map (·.1)).foldlM (fun r n => processIncludes r n) reg

/-!
## Final self-conflict fix-up and uniqueness check (lines 144-168)
-/

/-- The self-check conflict fix-up applied to a finished build
(`fixConfigurationConflicts(builder.build, builder.build, ...)` on both
configuration pairs). -/
def finalSelfFix (b : Build) : Build :=
  { b with
    configuration := fixConfigurationConflicts b.configuration b.configuration true
    configuration_adv := fixConfigurationConflicts b.configuration_adv b.configuration_adv true }

/-- The uniqueness loop over `Object.values(loaded)`: `all` is the full
value list that every `filter` ranges over; the first argument list is the
iteration remainder.  Only `meta` is read by the source loop, so the
entries are the `meta` objects. -/
def checkUniqueGo (all : List MetaNames) : List MetaNames → Except String Unit
  | [] => .ok ()
  | b :: rest =>
    if (all.filter (fun l => l.stable_name == b.stable_name)).length > 1 then
      .error ("Asset name " ++ b.stable_name ++ " is used by more than 1 build")
    else if (all.filter (fun l => l.nightly_name == b.nightly_name)).length > 1 then
      .error ("Asset name " ++ b.nightly_name ++ " is used by more than 1 build")
    else checkUniqueGo all rest

/-- The "check unique asset names" step of `loadBuilds`. -/
def checkUniqueAssetNames (loaded : List MetaNames) : Except String Unit :=
  checkUniqueGo loaded loaded

/-!
## Document Classifier (`preparseBuilds`, lines 212-233)
-/

/-- A raw document as far as classification inspects it: whether it is a
non-null object, whether it carries a `partial` key (and that key's value;
the only values the claims distinguish are `true` and not-`true`, so the
value is modelled by `Bool`), and whether it carries an `extends` key. -/
structure RawDoc where
  isObj : Bool
  partKey : Option Bool
  extendsKey : Bool
deriving DecidableEq

/-- Which schema `preparseBuilds` validates a raw document against:
`"partial" in build` (key presence) selects the partial schema,
otherwise `"extends" in build` selects the extended schema, otherwise the
full schema. -/
def classifyDoc (d : RawDoc) : DocKind :=
  if d.isObj && d.partKey.isSome then DocKind.part
  else if d.isObj && d.extendsKey then DocKind.ext
  else DocKind.full

/-- The `partial: z.literal(true)` field check of the partial schema: the
marker must be present and literally `true`. -/
def partMarkerValid (d : RawDoc) : Bool :=
  d.partKey == some true

/-!
## Derived notions and concrete fixtures used by the theorems
-/

/-- The enable list of document `n` after resolution and the final
self-conflict fix-up, when resolution succeeded. -/
def resolvedEnables (r : Except MergeErr Registry) (n : String) : Option (List Enable) :=
  match r with
  | .ok reg => (getReg reg n).map (fun e => (finalSelfFix e.build).configuration.enable)
  | .error _ => none

/-- Acyclicity of the `extends` graph of a registry, witnessed by a rank
function that strictly decreases from a document to each of its parents. -/
def RankOk (rank : String → Nat) (reg : Registry) : Prop :=
  ∀ n e, getReg reg n = some e → ∀ p ∈ parentsOf e.build, rank p < rank n

/-- A configuration with several names enabled and disabled at once. -/
def c1cfg : ConfigSet := ⟨[.bare "A", .bare "B", .bare "C"], ["A", "B"]⟩

/-- Parent build enabling `X` with a tuple parameter value. -/
def c2base : Entry :=
  ⟨DocKind.full, "base",
    { emptyBuild with
        board_env := some "mega2560"
        meta := some ⟨"base-stable", "base-nightly"⟩
        configuration := ⟨[.tup "X" 5], []⟩ }⟩

def c2reg : Registry := [("base", c2base)]

/-- Child extending `base` and enabling `X` as a bare name. -/
def c2child : Build :=
  { emptyBuild with
      extendsField := some (.one "base")
      meta := some ⟨"child-stable", "child-nightly"⟩
      configuration := ⟨[.bare "X"], []⟩ }

/-- First parent: bare enable `"XY"` followed by tuple enable `("X", 1)`. -/
def c3p1 : Entry :=
  ⟨DocKind.full, "p1",
    { emptyBuild with
        meta := some ⟨"p1-s", "p1-n"⟩
        configuration := ⟨[.bare "XY", .tup "X" 1], []⟩ }⟩

/-- Second parent: tuple enable `("X", 2)`. -/
def c3p2 : Entry :=
  ⟨DocKind.full, "p2",
    { emptyBuild with
        meta := some ⟨"p2-s", "p2-n"⟩
        configuration := ⟨[.tup "X" 2], []⟩ }⟩

def c3reg : Registry := [("p1", c3p1), ("p2", c3p2)]

/-- Child extending `[p1, p2]` with no configuration of its own. -/
def c3child : Build :=
  { emptyBuild with
      extendsField := some (.many ["p1", "p2"])
      meta := some ⟨"c-s", "c-n"⟩ }

def c8bEntry : Entry :=
  ⟨DocKind.full, "b", { emptyBuild with meta := some ⟨"b-s", "b-n"⟩ }⟩

def c8reg : Registry := [("b", c8bEntry)]

def c8dBuild : Build :=
  { emptyBuild with
      extendsField := some (.one "b")
      meta := some ⟨"d-s", "d-n"⟩ }

def c8rank : String → Nat := fun n => if n = "d" then 1 else 0

/-- A partial enabling `X` with a tuple value. -/
def c9p (X : String) (v : Nat) : Entry :=
  ⟨DocKind.part, "p", { emptyBuild with configuration := ⟨[.tup X v], []⟩ }⟩

/-- First includer: disables `X`. -/
def c9d1 (X : String) : Entry :=
  ⟨DocKind.full, "d1",
    { emptyBuild with
        includeField := some (.one "p")
        configuration := ⟨[], [X]⟩ }⟩

/-- Second includer: no opinion on `X` at all. -/
def c9d2 : Entry :=
  ⟨DocKind.full, "d2", { emptyBuild with includeField := some (.one "p") }⟩

/-- Registry in iteration order: the partial, then `d1`, then `d2`. -/
def c9reg (X : String) (v : Nat) : Registry :=
  [("p", c9p X v), ("d1", c9d1 X), ("d2", c9d2)]

-- sanity checks of the embedding on concrete inputs
example :
    fixConfigurationConflicts ⟨[.bare "A"], ["B"]⟩ ⟨[.bare "B"], ["A"]⟩ false
      = ⟨[], []⟩ := by decide

example :
    mergeExtensionConfiguration ⟨[.tup "OPT_X" 5], []⟩ ⟨[.tup "OPT_X" 9], []⟩
      = ⟨[.tup "OPT_X" 9], []⟩ := by decide

example :
    mergePartialConfiguration ⟨[.tup "OPT_X" 5], []⟩ ⟨[.tup "OPT_X" 9], []⟩
      = ⟨[.tup "OPT_X" 5], []⟩ := by decide

/-!
## Theorems about the claims
-/

/-- Claim C1.  The self-check Conflict Reconciler is claimed to leave every
name that occurs in both lists present only in the disable list, including
sets with several such names.  The code evaluates otherwise: on a set that
enables `A, B, C` and disables `A, B`, the sequential `splice` by stale
indices removes `A` and then the entry that has shifted into index 1 —
which is `C` — so `B` survives in the enable list while also being
disabled (and the non-conflicting `C` is dropped). -/
theorem selfCheck_leaves_name_in_both_lists :
    fixConfigurationConflicts c1cfg c1cfg true = ⟨[.bare "B"], ["A", "B"]⟩ ∧
    Enable.bare "B" ∈ (fixConfigurationConflicts c1cfg c1cfg true).enable ∧
    "B" ∈ (fixConfigurationConflicts c1cfg c1cfg true).disable := by decide

/-- Claim C2.  A document `child` extending `base` is claimed to end up
with its own declared value for an option it sets, never the parent's.  The
code evaluates otherwise when the shapes differ: `base` enables
`["X", 5]`, `child` enables bare `"X"`; because the bare branch of the
merge checks membership with strict equality (a string is never equal to a
tuple), the child's resolved enable list retains the parent's `["X", 5]`
and additionally appends the bare `"X"`. -/
theorem extension_override_keeps_parent_value :
    resolvedEnables (mergeExtension 2 c2reg "child" c2child) "child"
      = some [.tup "X" 5, .bare "X"] := by decide

/-- Claim C3.  For `child` extending `[p1, p2]` where both parents enable
`X` with different tuple values, the later parent's value is claimed to
win.  The code evaluates otherwise when `p1` also has a bare enable whose
*first character* equals `X`: the update lookup
`find(e => e[0] === enable[0])` matches the bare string `"XY"` (JavaScript
string indexing), which is not an array, so no update happens and `p1`'s
value 1 survives instead of `p2`'s value 2. -/
theorem chain_order_keeps_earlier_parent_value :
    resolvedEnables (mergeExtension 2 c3reg "child" c3child) "child"
      = some [.bare "XY", .tup "X" 1] := by decide

/-- Claim C4.  Including a partial is claimed to add no new entry for an
option the including document already defines.  The code evaluates
otherwise: the including document enables `["X", 5]`, the partial enables
bare `"X"`; conflict reconciliation does not touch enable-vs-enable pairs
and the bare-branch membership test uses strict equality, so a second
entry named `X` is appended to the including document.  (The composition
mirrors lines 108-109 of prepare.ts: first `fixConfigurationConflicts`
mutating the partial, then `mergePartialConfiguration` into the
document.) -/
theorem inclusion_adds_duplicate_entry :
    (mergePartialConfiguration ⟨[.tup "X" 5], []⟩
        (fixConfigurationConflicts ⟨[.bare "X"], []⟩ ⟨[.tup "X" 5], []⟩ false)).enable
      = [.tup "X" 5, .bare "X"] := by decide

/-- Claim C5, counterexample.  A document carrying `partial: false` and no
`extends` key is claimed to be validated against the Full shape; the
classifier actually tests key *presence* (`"partial" in build`), so this
document is validated against the Partial shape. -/
theorem classifier_false_marker_not_full :
    classifyDoc ⟨true, some false, false⟩ = DocKind.part ∧
    (⟨true, some false, false⟩ : RawDoc).partKey ≠ some true ∧
    DocKind.part ≠ DocKind.full := by decide

/-- Claim C5, amended.  A raw document is validated against the Partial
shape exactly when it is an object carrying a `partial` key of any value;
otherwise against the Extended shape exactly when it carries `extends`;
otherwise against the Full shape.  A document with a non-`true` `partial`
value then fails the Partial schema's `literal(true)` marker check rather
than being checked against the Full shape. -/
theorem classifier_selects_by_key_presence :
    (∀ d : RawDoc,
      (classifyDoc d = DocKind.part ↔ d.isObj ∧ d.partKey.isSome) ∧
      (classifyDoc d = DocKind.ext ↔ d.isObj ∧ d.partKey = none ∧ d.extendsKey) ∧
      (classifyDoc d = DocKind.full ↔
        ¬d.isObj ∨ (d.partKey = none ∧ ¬d.extendsKey))) ∧
    partMarkerValid ⟨true, some false, false⟩ = false := by
  constructor
  · rintro ⟨o, p, e⟩
    rcases p with _ | b
    · revert o e; decide
    · revert o e b; decide
  · decide

/-- Claim C6.  Every resolved enable sequence is claimed to hold at most
one entry per name.  The code evaluates otherwise: merging an extension
with bare enable `"X"` into a base holding `["X", 5]` appends a second
entry named `X`, because the bare branch checks strict membership instead
of membership by name. -/
theorem merge_duplicates_enable_name :
    (mergeExtensionConfiguration ⟨[.tup "X" 5], []⟩ ⟨[.bare "X"], []⟩).enable
      = [.tup "X" 5, .bare "X"] ∧
    ¬ ((mergeExtensionConfiguration ⟨[.tup "X" 5], []⟩ ⟨[.bare "X"], []⟩).enable.map
        enableName).Nodup := by decide

/-- Length of a name-filter equals the count of that name in the mapped
name list. -/
lemma filter_length_eq_count (f : MetaNames → String) (all : List MetaNames) (c : String) :
    (all.filter (fun x => f x == c)).length = (all.map f).count c := by
  rw [← List.countP_eq_length_filter,
    show ((all.map f).count c) = (all.map f).countP (· == c) from rfl,
    List.countP_map]
  rfl

/-- Freedom from duplicates of the mapped names, phrased the way the
uniqueness loop tests it. -/
lemma nodup_map_iff_filter (f : MetaNames → String) (all : List MetaNames) :
    (all.map f).Nodup ↔ ∀ b ∈ all, (all.filter (fun x => f x == f b)).length ≤ 1 := by
  rw [List.nodup_iff_count_le_one]
  constructor
  · intro h b hb
    rw [filter_length_eq_count]
    exact h (f b)
  · intro h a
    by_cases ha : a ∈ all.map f
    · obtain ⟨b, hb, rfl⟩ := List.mem_map.mp ha
      rw [← filter_length_eq_count]
      exact h b hb
    · rw [List.count_eq_zero_of_not_mem ha]
      omega

/-- The uniqueness loop succeeds iff no visited entry sees a duplicated
stable or nightly name in the full list. -/
lemma checkUniqueGo_ok_iff (all : List MetaNames) (l : List MetaNames) :
    checkUniqueGo all l = .ok () ↔
      ∀ b ∈ l,
        (all.filter (fun x => x.stable_name == b.stable_name)).length ≤ 1 ∧
        (all.filter (fun x => x.nightly_name == b.nightly_name)).length ≤ 1 := by
  induction l with
  | nil => simp [checkUniqueGo]
  | cons b rest ih =>
    unfold checkUniqueGo
    split
    next h1 =>
      constructor
      · intro h
        exact absurd h (by simp)
      · intro h
        exact absurd (h b (by simp)).1 (by omega)
    next h1 =>
      split
      next h2 =>
        constructor
        · intro h
          exact absurd h (by simp)
        · intro h
          exact absurd (h b (by simp)).2 (by omega)
      next h2 =>
        rw [ih]
        constructor
        · intro h x hx
          rcases List.mem_cons.mp hx with rfl | hx'
          · exact ⟨by omega, by omega⟩
          · exact h x hx'
        · intro h x hx
          exact h x (List.mem_cons_of_mem _ hx)

/-- When the uniqueness loop fails, its message names a duplicated stable
or nightly name of some visited entry. -/
lemma checkUniqueGo_error (all : List MetaNames) (l : List MetaNames) (e : String) :
    checkUniqueGo all l = .error e →
      ∃ b ∈ l,
        (e = "Asset name " ++ b.stable_name ++ " is used by more than 1 build" ∧
          (all.filter (fun x => x.stable_name == b.stable_name)).length > 1) ∨
        (e = "Asset name " ++ b.nightly_name ++ " is used by more than 1 build" ∧
          (all.filter (fun x => x.nightly_name == b.nightly_name)).length > 1) := by
  induction l with
  | nil => intro h; simp [checkUniqueGo] at h
  | cons b rest ih =>
    intro h
    unfold checkUniqueGo at h
    split at h
    next h1 =>
      simp only [Except.error.injEq] at h
      exact ⟨b, by simp, Or.inl ⟨h.symm, h1⟩⟩
    next h1 =>
      split at h
      next h2 =>
        simp only [Except.error.injEq] at h
        exact ⟨b, by simp, Or.inr ⟨h.symm, h2⟩⟩
      next h2 =>
        obtain ⟨x, hx, hor⟩ := ih h
        exact ⟨x, List.mem_cons_of_mem _ hx, hor⟩

/-- Claim C7.  The final uniqueness check succeeds exactly when all
`meta.stable_name`s and all `meta.nightly_name`s are pairwise distinct,
and on failure its fatal message names a value that occurs at least twice. -/
theorem uniqueness_check_ok_iff_nodup (loaded : List MetaNames) :
    (checkUniqueAssetNames loaded = .ok () ↔
      (loaded.map (fun x => x.stable_name)).Nodup ∧
      (loaded.map (fun x => x.nightly_name)).Nodup) ∧
    (∀ e, checkUniqueAssetNames loaded = .error e →
      ∃ n, e = "Asset name " ++ n ++ " is used by more than 1 build" ∧
        (2 ≤ (loaded.map (fun x => x.stable_name)).count n ∨
         2 ≤ (loaded.map (fun x => x.nightly_name)).count n)) := by
  constructor
  · rw [checkUniqueAssetNames, checkUniqueGo_ok_iff,
      nodup_map_iff_filter (fun x => x.stable_name),
      nodup_map_iff_filter (fun x => x.nightly_name)]
    constructor
    · intro h
      exact ⟨fun b hb => (h b hb).1, fun b hb => (h b hb).2⟩
    · intro h b hb
      exact ⟨h.1 b hb, h.2 b hb⟩
  · intro e he
    obtain ⟨b, _, hor⟩ := checkUniqueGo_error loaded loaded e he
    rcases hor with ⟨he', hlen⟩ | ⟨he', hlen⟩
    · refine ⟨b.stable_name, he', Or.inl ?_⟩
      rw [← filter_length_eq_count (fun x => x.stable_name)]
      omega
    · refine ⟨b.nightly_name, he', Or.inr ?_⟩
      rw [← filter_length_eq_count (fun x => x.nightly_name)]
      omega

/-- Witness for C7 at a concrete duplicated stable name. -/
theorem uniqueness_check_ok_iff_nodup_witness :
    ∃ n, "Asset name a is used by more than 1 build"
        = "Asset name " ++ n ++ " is used by more than 1 build" ∧
      (2 ≤ (([⟨"a", "x"⟩, ⟨"a", "y"⟩] : List MetaNames).map
          (fun x => x.stable_name)).count n ∨
       2 ≤ (([⟨"a", "x"⟩, ⟨"a", "y"⟩] : List MetaNames).map
          (fun x => x.nightly_name)).count n) :=
  (uniqueness_check_ok_iff_nodup [⟨"a", "x"⟩, ⟨"a", "y"⟩]).2
    "Asset name a is used by more than 1 build" rfl

/-- The in-place tuple update never touches entries whose name is `X` when
no tuple named `X` is present. -/
lemma updateFound_filter_eq (X n : String) (v : Nat) :
    ∀ l : List Enable, (∀ w, Enable.tup X w ∉ l) →
      (updateFound n v l).filter (fun e => enableName e == X)
        = l.filter (fun e => enableName e == X) := by
  intro l
  induction l with
  | nil => intro _; rfl
  | cons e rest ih =>
    intro ht
    have htr : ∀ w, Enable.tup X w ∉ rest := fun w hw => ht w (List.mem_cons_of_mem _ hw)
    cases e with
    | bare s =>
      unfold updateFound
      split
      · rfl
      · simp only [List.filter]
        rw [ih htr]
    | tup m w =>
      have hmX : m ≠ X := by
        intro h
        exact ht w (by simp [h])
      unfold updateFound
      split
      · simp only [List.filter, enableName]
        rw [show (m == X) = false from beq_eq_false_iff_ne.mpr hmX]
      · simp only [List.filter]
        rw [ih htr]

/-- The in-place tuple update introduces no tuple named `X` when none was
present. -/
lemma updateFound_no_tup (X n : String) (v : Nat) :
    ∀ l : List Enable, (∀ w, Enable.tup X w ∉ l) →
      ∀ w, Enable.tup X w ∉ updateFound n v l := by
  intro l
  induction l with
  | nil => intro _ w h; exact absurd h (List.not_mem_nil _)
  | cons e rest ih =>
    intro ht
    have htr : ∀ w, Enable.tup X w ∉ rest := fun w hw => ht w (List.mem_cons_of_mem _ hw)
    cases e with
    | bare s =>
      unfold updateFound
      split
      · exact ht
      · intro w hw
        rcases List.mem_cons.mp hw with h | h
        · exact absurd h (by simp)
        · exact ih htr w h
    | tup m w0 =>
      have hmX : m ≠ X := by
        intro h
        exact ht w0 (by simp [h])
      unfold updateFound
      split
      · intro w hw
        rcases List.mem_cons.mp hw with h | h
        · cases h; exact hmX rfl
        · exact htr w h
      · intro w hw
        rcases List.mem_cons.mp hw with h | h
        · cases h; exact hmX rfl
        · exact ih htr w h

/-- The in-place tuple update keeps every bare entry. -/
lemma updateFound_bare_mem (X n : String) (v : Nat) :
    ∀ l : List Enable, Enable.bare X ∈ l → Enable.bare X ∈ updateFound n v l := by
  intro l
  induction l with
  | nil => intro h; exact absurd h (List.not_mem_nil _)
  | cons e rest ih =>
    intro hb
    cases e with
    | bare s =>
      unfold updateFound
      split
      · exact hb
      · rcases List.mem_cons.mp hb with h | h
        · exact h ▸ List.mem_cons_self _ _
        · exact List.mem_cons_of_mem _ (ih h)
    | tup m w =>
      have hb' : Enable.bare X ∈ rest := by
        rcases List.mem_cons.mp hb with h | h
        · exact absurd h (by simp)
        · exact h
      unfold updateFound
      split
      · exact List.mem_cons_of_mem _ hb'
      · exact List.mem_cons_of_mem _ (ih hb')

/-- One extension-merge step preserves the `X`-named entries of the base
when the base holds `X` only as a bare enable. -/
lemma mergeEnableStep_keeps_X (X : String) (l : List Enable) (e : Enable)
    (hb : Enable.bare X ∈ l) (ht : ∀ w, Enable.tup X w ∉ l) :
    (mergeEnableStep l e).filter (fun x => enableName x == X)
        = l.filter (fun x => enableName x == X) ∧
    Enable.bare X ∈ mergeEnableStep l e ∧
    (∀ w, Enable.tup X w ∉ mergeEnableStep l e) := by
  cases e with
  | bare s =>
    simp only [mergeEnableStep]
    split
    next => exact ⟨rfl, hb, ht⟩
    next hc =>
      have hsX : s ≠ X := by
        intro h
        subst h
        exact hc (List.elem_iff.mpr hb)
      refine ⟨?_, List.mem_append_left _ hb, ?_⟩
      · rw [List.filter_append]
        simp [enableName, beq_eq_false_iff_ne.mpr hsX]
      · intro w hw
        rcases List.mem_append.mp hw with h | h
        · exact ht w h
        · simp at h
  | tup n v =>
    simp only [mergeEnableStep]
    split
    next =>
      exact ⟨updateFound_filter_eq X n v l ht, updateFound_bare_mem X n v l hb,
        updateFound_no_tup X n v l ht⟩
    next hc =>
      have hnX : n ≠ X := by
        intro h
        subst h
        exact hc (List.elem_iff.mpr (List.mem_map.mpr ⟨Enable.bare n, hb, rfl⟩))
      refine ⟨?_, List.mem_append_left _ hb, ?_⟩
      · rw [List.filter_append]
        simp [enableName, beq_eq_false_iff_ne.mpr hnX]
      · intro w hw
        rcases List.mem_append.mp hw with h | h
        · exact ht w h
        · simp at h
          exact hnX h.1.symm

/-- Folding the extension's enable loop preserves the `X`-named entries of
the base when the base holds `X` only as a bare enable. -/
lemma foldl_mergeEnableStep_keeps_X (X : String) :
    ∀ (ext : List Enable) (l : List Enable),
      Enable.bare X ∈ l → (∀ w, Enable.tup X w ∉ l) →
      (ext.foldl mergeEnableStep l).filter (fun x => enableName x == X)
        = l.filter (fun x => enableName x == X) := by
  intro ext
  induction ext with
  | nil => intro l _ _; rfl
  | cons e rest ih =>
    intro l hb ht
    obtain ⟨hf, hb', ht'⟩ := mergeEnableStep_keeps_X X l e hb ht
    calc ((e :: rest).foldl mergeEnableStep l).filter (fun x => enableName x == X)
        = (rest.foldl mergeEnableStep (mergeEnableStep l e)).filter
            (fun x => enableName x == X) := rfl
      _ = (mergeEnableStep l e).filter (fun x => enableName x == X) := ih _ hb' ht'
      _ = l.filter (fun x => enableName x == X) := hf

/-- Claim C10.  When the base enables `X` as a bare name (and holds no
tuple for `X`), merging an extension leaves the `X`-named enable entries of
the base exactly as they were: a tuple enable `(X, v)` from the extension
is neither appended (the name is present) nor recorded as an update (the
`find` result is the bare string, which fails the `Array.isArray` test),
so `v` is discarded. -/
theorem bare_enable_discards_tuple_value (base ext : ConfigSet) (X : String)
    (hb : Enable.bare X ∈ base.enable) (ht : ∀ w, Enable.tup X w ∉ base.enable) :
    (mergeExtensionConfiguration base ext).enable.filter (fun e => enableName e == X)
      = base.enable.filter (fun e => enableName e == X) :=
  foldl_mergeEnableStep_keeps_X X ext.enable base.enable hb ht

/-- Witness for C10: base bare-enables `"X"`, extension enables
`("X", 9)`. -/
theorem bare_enable_discards_tuple_value_witness :
    (mergeExtensionConfiguration ⟨[.bare "X"], []⟩ ⟨[.tup "X" 9], []⟩).enable.filter
        (fun e => enableName e == "X")
      = (ConfigSet.mk [.bare "X"] []).enable.filter (fun e => enableName e == "X") :=
  bare_enable_discards_tuple_value ⟨[.bare "X"], []⟩ ⟨[.tup "X" 9], []⟩ "X"
    (by decide) (by intro w h; simp at h)

/-- Claim C9.  The partial's registry entry is mutated in place: after
`d1` (which disables `X`) consumes partial `p` (which enables `(X, v)`),
the entry for `X` has been removed from `p` itself, so the later includer
`d2` — which has no opinion on `X` — receives nothing, even though merging
the pristine partial into `d2` would have handed it `(X, v)`. -/
theorem inclusion_mutates_shared_fragment (X : String) (v : Nat) :
    (inclusionPass (c9reg X v)).toOption.bind
        (fun r => (getReg r "d2").map (fun e => e.build.configuration.enable)) = some [] ∧
    (inclusionPass (c9reg X v)).toOption.bind
        (fun r => (getReg r "p").map (fun e => e.build.configuration.enable)) = some [] ∧
    (mergePartialConfiguration ⟨[], []⟩ ⟨[Enable.tup X v], []⟩).enable
      = [Enable.tup X v] := by
  simp [inclusionPass, processIncludes, processOneInclude, fixConfigurationConflicts,
    mergePartialConfiguration, mergePartialEnableStep, mergeDisableStep, enableName,
    getReg, setReg, hasKey, replaceKey, c9reg, c9p, c9d1, c9d2, emptyBuild,
    List.foldlM, List.enum, List.enumFrom, List.eraseIdx, Except.toOption,
    Bind.bind, Except.bind, Except.instMonad, Pure.pure, Except.pure]

/-- A key that is absent cannot be looked up. -/
lemma hasKey_false_getReg (n : String) :
    ∀ reg : Registry, hasKey reg n = false → getReg reg n = none := by
  intro reg
  induction reg with
  | nil => intro _; rfl
  | cons p rest ih =>
    obtain ⟨k, e⟩ := p
    intro h
    simp only [hasKey, Bool.or_eq_false_iff] at h
    simp only [getReg, h.1, Bool.false_eq_true, if_false]
    exact ih h.2

/-- Replacing a present key makes lookup return the new entry. -/
lemma getReg_replaceKey_self (n : String) (e : Entry) :
    ∀ reg : Registry, hasKey reg n = true → getReg (replaceKey reg n e) n = some e := by
  intro reg
  induction reg with
  | nil => intro h; simp [hasKey] at h
  | cons p rest ih =>
    obtain ⟨k, e0⟩ := p
    intro h
    simp only [hasKey, Bool.or_eq_true] at h
    by_cases hk : (k == n) = true
    · simp [replaceKey, getReg, hk]
    · rcases h with h | h
      · exact absurd h hk
      · simp only [replaceKey, hk, Bool.false_eq_true, if_false, getReg]
        exact ih h

/-- Replacing key `n` does not change lookups of other keys. -/
lemma getReg_replaceKey_ne (n m : String) (e : Entry) (hmn : m ≠ n) :
    ∀ reg : Registry, getReg (replaceKey reg n e) m = getReg reg m := by
  intro reg
  induction reg with
  | nil => rfl
  | cons p rest ih =>
    obtain ⟨k, e0⟩ := p
    by_cases hk : (k == n) = true
    · have hkm : (k == m) = false := by
        have : k = n := by simpa using hk
        subst this
        exact beq_eq_false_iff_ne.mpr (fun h => hmn h.symm)
      simp only [replaceKey, hk, if_true, getReg, hkm, Bool.false_eq_true, if_false]
      exact ih
    · simp only [replaceKey, hk, Bool.false_eq_true, if_false, getReg]
      by_cases hkm : (k == m) = true
      · simp [hkm]
      · simp only [hkm, Bool.false_eq_true, if_false]
        exact ih

/-- Appending a fresh key makes its lookup return the new entry, provided
the key was absent. -/
lemma getReg_append_self (n : String) (e : Entry) :
    ∀ reg : Registry, getReg reg n = none → getReg (reg ++ [(n, e)]) n = some e := by
  intro reg
  induction reg with
  | nil => intro _; simp [getReg]
  | cons p rest ih =>
    obtain ⟨k, e0⟩ := p
    intro h
    simp only [getReg] at h
    by_cases hk : (k == n) = true
    · simp [hk] at h
    · simp only [hk, Bool.false_eq_true, if_false] at h
      simp only [List.cons_append, getReg, hk, Bool.false_eq_true, if_false]
      exact ih h

/-- Appending an entry for another key does not change a lookup. -/
lemma getReg_append_one_ne (n m : String) (e : Entry) (hmn : m ≠ n) :
    ∀ reg : Registry, getReg (reg ++ [(n, e)]) m = getReg reg m := by
  intro reg
  induction reg with
  | nil =>
    simp only [List.nil_append, getReg]
    rw [show (n == m) = false from beq_eq_false_iff_ne.mpr (fun h => hmn h.symm)]
    simp [getReg]
  | cons p rest ih =>
    obtain ⟨k, e0⟩ := p
    simp only [List.cons_append, getReg]
    by_cases hkm : (k == m) = true
    · simp [hkm]
    · simp only [hkm, Bool.false_eq_true, if_false]
      exact ih

/-- Looking up the key just stored. -/
lemma getReg_setReg_self (reg : Registry) (n : String) (e : Entry) :
    getReg (setReg reg n e) n = some e := by
  unfold setReg
  split
  next h => exact getReg_replaceKey_self n e reg h
  next h =>
    exact getReg_append_self n e reg
      (hasKey_false_getReg n reg (Bool.not_eq_true _ ▸ Bool.of_not_eq_true h))

/-- Storing under one key does not change lookups of other keys. -/
lemma getReg_setReg_ne (reg : Registry) (n m : String) (e : Entry) (hmn : m ≠ n) :
    getReg (setReg reg n e) m = getReg reg m := by
  unfold setReg
  split
  next => exact getReg_replaceKey_ne n m e hmn reg
  next => exact getReg_append_one_ne n m e hmn reg

/-- Storing an entry whose parents all rank below its key preserves the
rank invariant. -/
lemma rankOk_setReg {rank : String → Nat} {reg : Registry} {n : String} {e : Entry}
    (hreg : RankOk rank reg) (he : ∀ p ∈ parentsOf e.build, rank p < rank n) :
    RankOk rank (setReg reg n e) := by
  intro m em hm q hq
  by_cases hmn : m = n
  · subst hmn
    rw [getReg_setReg_self] at hm
    cases hm
    exact he q hq
  · rw [getReg_setReg_ne reg n m e hmn] at hm
    exact hreg m em hm q hq

/-- Merging a parent into the accumulator keeps the accumulator's
`extends` references (only configurations and core scalars change). -/
lemma parentsOf_mergeEntryInto (a c : Entry) :
    parentsOf (mergeEntryInto a c).build = parentsOf a.build := rfl

/-- Fetching (and, if needed, recursively resolving) a parent neither runs
out of fuel nor breaks the rank invariant, and the entry it returns has all
its `extends` references ranked strictly below the parent's name. -/
lemma resolveParentEntry_spec (fuel : Nat) (rank : String → Nat)
    (IH : ∀ reg n b, RankOk rank reg → (∀ p ∈ parentsOf b, rank p < rank n) →
      rank n < fuel →
      mergeExtension fuel reg n b ≠ .error .outOfFuel ∧
      ∀ r', mergeExtension fuel reg n b = .ok r' → RankOk rank r')
    (reg : Registry) (ex : String) (hreg : RankOk rank reg) (hex : rank ex < fuel) :
    resolveParentEntry (mergeExtension fuel) reg ex ≠ .error .outOfFuel ∧
    ∀ reg' cur, resolveParentEntry (mergeExtension fuel) reg ex = .ok (reg', cur) →
      RankOk rank reg' ∧ ∀ p ∈ parentsOf cur.build, rank p < rank ex := by
  cases hg : getReg reg ex with
  | none =>
    constructor
    · simp [resolveParentEntry, hg]
    · intro r c h
      simp [resolveParentEntry, hg] at h
  | some cur =>
    cases hk : cur.kind with
    | ext =>
      have hpar : ∀ p ∈ parentsOf cur.build, rank p < rank ex := hreg ex cur hg
      have hrec := IH reg ex cur.build hreg hpar hex
      cases hr : mergeExtension fuel reg ex cur.build with
      | error err =>
        have herr : err ≠ MergeErr.outOfFuel := by
          intro hc
          subst hc
          exact hrec.1 hr
        constructor
        · simp only [resolveParentEntry, hg, hk, hr, ne_eq, Except.error.injEq]
          exact herr
        · intro r c h
          simp only [resolveParentEntry, hg, hk, hr] at h
          exact absurd h (by simp)
      | ok reg1 =>
        have hR1 : RankOk rank reg1 := hrec.2 reg1 hr
        cases hg1 : getReg reg1 ex with
        | none =>
          constructor
          · simp [resolveParentEntry, hg, hk, hr, hg1]
          · intro r c h
            simp [resolveParentEntry, hg, hk, hr, hg1] at h
        | some cur1 =>
          constructor
          · simp [resolveParentEntry, hg, hk, hr, hg1]
          · intro r c h
            simp only [resolveParentEntry, hg, hk, hr, hg1, Except.ok.injEq,
              Prod.mk.injEq] at h
            obtain ⟨rfl, rfl⟩ := h
            exact ⟨hR1, hR1 ex cur1 hg1⟩
    | full =>
      constructor
      · simp [resolveParentEntry, hg, hk]
      · intro r c h
        simp only [resolveParentEntry, hg, hk, Except.ok.injEq, Prod.mk.injEq] at h
        obtain ⟨rfl, rfl⟩ := h
        exact ⟨hreg, hreg ex cur hg⟩
    | part =>
      constructor
      · simp [resolveParentEntry, hg, hk]
      · intro r c h
        simp only [resolveParentEntry, hg, hk, Except.ok.injEq, Prod.mk.injEq] at h
        obtain ⟨rfl, rfl⟩ := h
        exact ⟨hreg, hreg ex cur hg⟩

/-- Folding an ordered parent list never runs out of fuel when every listed
parent ranks below `bound ≤ fuel`, preserves the rank invariant, and keeps
the accumulator's `extends` references ranked below `bound`. -/
lemma extFoldParents_spec (fuel : Nat) (rank : String → Nat) (bound : Nat)
    (IH : ∀ reg n b, RankOk rank reg → (∀ p ∈ parentsOf b, rank p < rank n) →
      rank n < fuel →
      mergeExtension fuel reg n b ≠ .error .outOfFuel ∧
      ∀ r', mergeExtension fuel reg n b = .ok r' → RankOk rank r')
    (hbf : bound ≤ fuel) :
    ∀ (exts : List String) (reg : Registry) (ini : Option Entry),
      RankOk rank reg →
      (∀ p ∈ exts, rank p < bound) →
      (∀ i, ini = some i → ∀ p ∈ parentsOf i.build, rank p < bound) →
      extFoldParents (mergeExtension fuel) reg exts ini ≠ .error .outOfFuel ∧
      ∀ reg' ini', extFoldParents (mergeExtension fuel) reg exts ini = .ok (reg', ini') →
        RankOk rank reg' ∧ ∀ i, ini' = some i → ∀ p ∈ parentsOf i.build, rank p < bound := by
  intro exts
  induction exts with
  | nil =>
    intro reg ini hreg _ hini
    constructor
    · simp [extFoldParents]
    · intro reg' ini' h
      simp only [extFoldParents, Except.ok.injEq, Prod.mk.injEq] at h
      obtain ⟨rfl, rfl⟩ := h
      exact ⟨hreg, hini⟩
  | cons ex rest ih =>
    intro reg ini hreg hexts hini
    have hexlt : rank ex < fuel := lt_of_lt_of_le (hexts ex (by simp)) hbf
    have hres := resolveParentEntry_spec fuel rank IH reg ex hreg hexlt
    cases hr : resolveParentEntry (mergeExtension fuel) reg ex with
    | error err =>
      have herr : err ≠ MergeErr.outOfFuel := by
        intro hc
        subst hc
        exact hres.1 hr
      constructor
      · simp only [extFoldParents, hr, ne_eq, Except.error.injEq]
        exact herr
      · intro r i h
        simp only [extFoldParents, hr] at h
        exact absurd h (by simp)
    | ok pr =>
      obtain ⟨reg1, cur⟩ := pr
      obtain ⟨hR1, hparcur⟩ := hres.2 reg1 cur hr
      have hparcurb : ∀ p ∈ parentsOf cur.build, rank p < bound :=
        fun p hp => lt_trans (hparcur p hp) (hexts ex (by simp))
      have hrest : ∀ p ∈ rest, rank p < bound :=
        fun p hp => hexts p (List.mem_cons_of_mem _ hp)
      cases ini with
      | none =>
        have hstep := ih reg1 (some cur) hR1 hrest
          (fun i hi => by cases hi; exact hparcurb)
        constructor
        · simp only [extFoldParents, hr]
          exact hstep.1
        · intro r i h
          simp only [extFoldParents, hr] at h
          exact hstep.2 r i h
      | some i0 =>
        have hi0 : ∀ p ∈ parentsOf i0.build, rank p < bound := hini i0 rfl
        have hstep := ih reg1 (some (mergeEntryInto i0 cur)) hR1 hrest
          (fun i hi => by
            cases hi
            rw [parentsOf_mergeEntryInto]
            exact hi0)
        constructor
        · simp only [extFoldParents, hr]
          exact hstep.1
        · intro r i h
          simp only [extFoldParents, hr] at h
          exact hstep.2 r i h

/-- The Extension Resolver neither runs out of fuel nor breaks the rank
invariant, for any fuel exceeding the rank of the document being
resolved. -/
lemma mergeExtension_spec (rank : String → Nat) :
    ∀ (fuel : Nat) (reg : Registry) (buildName : String) (build : Build),
      RankOk rank reg →
      (∀ p ∈ parentsOf build, rank p < rank buildName) →
      rank buildName < fuel →
      mergeExtension fuel reg buildName build ≠ .error .outOfFuel ∧
      ∀ r', mergeExtension fuel reg buildName build = .ok r' → RankOk rank r' := by
  intro fuel
  induction fuel with
  | zero =>
    intro reg n b _ _ h
    exact absurd h (Nat.not_lt_zero _)
  | succ fuel ih =>
    intro reg buildName build hreg hpar hf
    have hble : rank buildName ≤ fuel := Nat.lt_succ_iff.mp hf
    cases hext : build.extendsField with
    | none =>
      constructor
      · simp [mergeExtension, hext]
      · intro r h
        simp [mergeExtension, hext] at h
    | some sl =>
      cases sl with
      | one ex =>
        have hexlt : rank ex < rank buildName := hpar ex (by simp [parentsOf, hext])
        have hexf : rank ex < fuel := lt_of_lt_of_le hexlt hble
        have hres := resolveParentEntry_spec fuel rank ih reg ex hreg hexf
        cases hr : resolveParentEntry (mergeExtension fuel) reg ex with
        | error err =>
          have herr : err ≠ MergeErr.outOfFuel := by
            intro hc
            subst hc
            exact hres.1 hr
          constructor
          · simp only [mergeExtension, hext, hr, ne_eq, Except.error.injEq]
            exact herr
          · intro r h
            simp only [mergeExtension, hext, hr] at h
            exact absurd h (by simp)
        | ok pr =>
          obtain ⟨reg1, base⟩ := pr
          obtain ⟨hR1, hparbase⟩ := hres.2 reg1 base hr
          constructor
          · simp [mergeExtension, hext, hr]
          · intro r h
            simp only [mergeExtension, hext, hr, Except.ok.injEq] at h
            subst h
            exact rankOk_setReg hR1
              (fun p hp => lt_trans (hparbase p hp) hexlt)
      | many exts =>
        have hextspar : ∀ p ∈ exts, rank p < rank buildName := by
          intro p hp
          exact hpar p (by simp [parentsOf, hext, hp])
        have hfold := extFoldParents_spec fuel rank (rank buildName) ih hble exts reg
          none hreg hextspar (fun i hi => nomatch hi)
        cases hr : extFoldParents (mergeExtension fuel) reg exts none with
        | error err =>
          have herr : err ≠ MergeErr.outOfFuel := by
            intro hc
            subst hc
            exact hfold.1 hr
          constructor
          · simp only [mergeExtension, hext, hr, ne_eq, Except.error.injEq]
            exact herr
          · intro r h
            simp only [mergeExtension, hext, hr] at h
            exact absurd h (by simp)
        | ok pr =>
          obtain ⟨reg1, ini⟩ := pr
          obtain ⟨hR1, hini⟩ := hfold.2 reg1 ini hr
          cases ini with
          | none =>
            constructor
            · simp [mergeExtension, hext, hr]
            · intro r h
              simp only [mergeExtension, hext, hr, Except.ok.injEq] at h
              subst h
              exact hR1
          | some ini0 =>
            constructor
            · simp [mergeExtension, hext, hr]
            · intro r h
              simp only [mergeExtension, hext, hr, Except.ok.injEq] at h
              subst h
              exact rankOk_setReg hR1 (fun p hp => hini ini0 rfl p hp)

/-- Claim C8.  On a registry whose `extends` references are acyclic —
witnessed by a rank function strictly decreasing towards parents — the
Extension Resolver terminates on every document: any fuel larger than the
document's rank is enough, i.e. the recursion is well-founded on extension
depth.  (The source has no cycle guard; nothing is claimed for cyclic
registries, where the embedding exhausts any finite fuel.) -/
theorem extension_resolver_terminates_acyclic
    (rank : String → Nat) (reg : Registry) (buildName : String) (build : Build)
    (fuel : Nat) (hreg : RankOk rank reg)
    (hpar : ∀ p ∈ parentsOf build, rank p < rank buildName)
    (hfuel : rank buildName < fuel) :
    mergeExtension fuel reg buildName build ≠ Except.error MergeErr.outOfFuel :=
  (mergeExtension_spec rank fuel reg buildName build hreg hpar hfuel).1

/-- Witness for C8 on a concrete two-document registry (`d` extends the
full build `b`) with the rank that maps `d` to 1 and everything else
to 0. -/
theorem extension_resolver_terminates_acyclic_witness :
    mergeExtension 2 c8reg "d" c8dBuild ≠ Except.error MergeErr.outOfFuel :=
  extension_resolver_terminates_acyclic c8rank c8reg "d" c8dBuild 2
    (by
      intro n e h p hp
      simp only [c8reg, getReg] at h
      split at h
      next hn =>
        cases h
        simp [c8bEntry, parentsOf, emptyBuild] at hp
      next hn => cases h)
    (by
      intro p hp
      simp only [c8dBuild, parentsOf] at hp
      simp at hp
      subst hp
      decide)
    (by decide)
